import Mathlib

/-!
Verification of the heredity inference program (src/heredity.py).

The program performs exact Bayesian inference over a pedigree: it enumerates
every joint assignment of gene counts (0/1/2) and trait statuses (true/false)
to the people, evaluates each assignment's joint probability from fixed
probability tables, accumulates per-person marginals and normalizes them.

A defect in the committed source, found while embedding it: line 233 of
src/heredity.py — `return prob`, the sole return statement of
child_parent_prob — is indented with three spaces while the function body
sits at four.  Python rejects the file at compile time (IndentationError
at line 233), so the module never loads and the committed program computes
nothing at all: every invocation dies with a traceback before main runs.
The function's docstring, the commented-out earlier version above it and
the surrounding code make the intent unambiguous, and the unique minimal
repair is to dedent that one return to the function-body level.  The
definition `child_parent_prob` below embeds that intended function, and
every theorem that depends on it is a statement about this intended
program, not about the unparseable committed one.  Definitions that embed
only syntactically valid parts of the source (powerset, the enumeration
loops of main, normalize) are unaffected.

Embedding conventions:
- Python floats are modelled as rationals (ℚ); the numeric literals of the
  tables are exact decimal fractions.
- Python dictionaries keyed by gene count are modelled as functions
  ℕ → Option ℚ; a `none` result models a Python KeyError.
- In the repaired child_parent_prob, a fallthrough of the if/elif chain
  leaves `prob` unbound (UnboundLocalError at the return); this is
  modelled by `none`.
- Person names are an arbitrary type α with decidable equality; the dict of
  people is a list of names together with a lookup function.  `request`,
  built in the source by a loop over the names, is modelled as the
  corresponding total function on names.
- A ZeroDivisionError in normalize is modelled by `none`.
-/

namespace Heredity

/-- PROBS["mutation"] (src/heredity.py line 36). -/
def PROBS_mutation : ℚ := 1/100

/-- PROBS["gene"]: unconditional prior for the gene count of a founder
(src/heredity.py lines 8-12); a key outside 0/1/2 raises KeyError (`none`). -/
def PROBS_gene : ℕ → Option ℚ
  | 0 => some (96/100)
  | 1 => some (3/100)
  | 2 => some (1/100)
  | _ => none

/-- PROBS["trait"]: probability of the trait status given the gene count
(src/heredity.py lines 14-33). -/
def PROBS_trait : ℕ → Bool → Option ℚ
  | 2, true => some (65/100)
  | 2, false => some (35/100)
  | 1, true => some (56/100)
  | 1, false => some (44/100)
  | 0, true => some (1/100)
  | 0, false => some (99/100)
  | _, _ => none

/-- PARENT_PROB["parent"]: probability that a parent with the given gene
count (first index) passes on the given number of mutated alleles, 0 or 1
(second index) (src/heredity.py lines 39-58). -/
def PARENT_PROB_parent : ℕ → ℕ → Option ℚ
  | 0, 0 => some (1 - PROBS_mutation)
  | 0, 1 => some PROBS_mutation
  | 1, 0 => some (1/2)
  | 1, 1 => some (1/2)
  | 2, 0 => some PROBS_mutation
  | 2, 1 => some (1 - PROBS_mutation)
  | _, _ => none

/-- One row of the `people` dictionary produced by load_data
(src/heredity.py lines 118-137): optional mother and father references and
an optional observed trait. -/
structure Person (α : Type) where
  mother : Option α
  father : Option α
  trait : Option Bool

/-- The `people` dictionary: the list of its keys (in iteration order)
together with the record lookup. -/
structure Pedigree (α : Type) where
  names : List α
  person : α → Person α

/-- One entry of the `request` dictionary built in joint_probability and
update: a hypothesized gene count and trait status for one person. -/
structure Request where
  gene : ℕ
  trait : Bool
deriving DecidableEq

variable {α : Type} [DecidableEq α]

/-- The gene number assigned to a name by the if/elif chain of
joint_probability (src/heredity.py lines 168-173) and update (lines
247-252): 1 inside `one_gene`, else 2 inside `two_genes`, else 0. -/
def gene_no (one_gene two_genes : List α) (name : α) : ℕ :=
  if name ∈ one_gene then 1 else if name ∈ two_genes then 2 else 0

/-- The `request` dictionary built by joint_probability (src/heredity.py
lines 164-180) and update (lines 243-259), as a function on names. -/
def request (one_gene two_genes have_trait : List α) (name : α) : Request :=
  ⟨gene_no one_gene two_genes name, decide (name ∈ have_trait)⟩

/-- child_parent_prob (src/heredity.py lines 197-233): probability that
`child` has the requested gene count given its parents' requested gene
counts, or the gene prior for a founder (no mother recorded).

As committed, the closing `return prob` (line 233) is indented with three
spaces, which Python rejects at compile time, so the function never
parses and the module never loads.  This definition embeds the evidently
intended function — the one obtained by dedenting that single return to
the function-body level; see the defect note at the top of the file.
Under that repair, `none` models a crash: a KeyError from a table lookup,
a lookup `request[None]` when the mother is recorded but the father is
not, or the if/elif chain falling through (leaving `prob` unbound at the
return) for a gene count outside 0/1/2. -/
def child_parent_prob (child : α) (people : Pedigree α) (req : α → Request) :
    Option ℚ :=
  match (people.person child).mother with
  | some mum =>
    match (people.person child).father with
    | some dad =>
      let child_gene_no := (req child).gene
      if child_gene_no = 0 then do
        let a ← PARENT_PROB_parent (req mum).gene 0
        let b ← PARENT_PROB_parent (req dad).gene 0
        pure (a * b)
      else if child_gene_no = 1 then do
        let a ← PARENT_PROB_parent (req mum).gene 1
        let b ← PARENT_PROB_parent (req dad).gene 1
        pure (a * (1 - b) + (1 - a) * b)
      else if child_gene_no = 2 then do
        let a ← PARENT_PROB_parent (req mum).gene 1
        let b ← PARENT_PROB_parent (req dad).gene 1
        pure (a * b)
      else none
    | none => none
  | none => PROBS_gene (req child).gene

/-- The body of the accumulation loop of joint_probability (src/heredity.py
lines 183-188): multiply the child-parent gene probability and the
trait-given-gene entry for one person into the running total. -/
def jstep (people : Pedigree α) (one_gene two_genes have_trait : List α)
    (total : ℚ) (name : α) : Option ℚ := do
  let cp ← child_parent_prob name people (request one_gene two_genes have_trait)
  let tp ← PROBS_trait (request one_gene two_genes have_trait name).gene
    (request one_gene two_genes have_trait name).trait
  pure (total * (cp * tp))

/-- joint_probability (src/heredity.py lines 152-195): the probability that
every person simultaneously has the gene count and trait status encoded by
the three sets.  The loop `total_prob *= child_parent_prob * PROBS_trait`
is a monadic fold; `none` models a crash propagating out of the loop. -/
def joint_probability (people : Pedigree α)
    (one_gene two_genes have_trait : List α) : Option ℚ :=
  people.names.foldlM (jstep people one_gene two_genes have_trait) 1

/-- itertools.combinations(s, r): all r-element sublists of s, in the order
itertools yields them. -/
def combinations : ℕ → List α → List (List α)
  | 0, _ => [[]]
  | _ + 1, [] => []
  | r + 1, x :: xs => (combinations r xs).map (x :: ·) ++ combinations (r + 1) xs

/-- powerset (src/heredity.py lines 140-149): all subsets of s, obtained by
chaining the r-combinations for r = 0, ..., length s. -/
def powerset (s : List α) : List (List α) :=
  (List.range (s.length + 1)).flatMap (fun r => combinations r s)

/-- The evidence check of main (src/heredity.py lines 89-93): the candidate
trait set contradicts a known trait observation. -/
def fails_evidence (people : Pedigree α) (have_trait : List α) : Bool :=
  people.names.any (fun person =>
    match (people.person person).trait with
    | some t => t != decide (person ∈ have_trait)
    | none => false)

/-- The per-person accumulator entry of main (src/heredity.py lines 69-82):
running sums for the three gene counts and the two trait statuses. -/
structure PersonProbs where
  gene0 : ℚ
  gene1 : ℚ
  gene2 : ℚ
  traitTrue : ℚ
  traitFalse : ℚ
deriving DecidableEq

/-- Adding mass p into one gene bucket and one trait bucket of a person's
accumulator entry (the two += statements of update, src/heredity.py lines
261-263).  A gene key outside 0/1/2 would be a KeyError in the source; it is
unreachable because update builds the request with gene_no. -/
def addMass (pp : PersonProbs) (gene : ℕ) (t : Bool) (p : ℚ) : PersonProbs :=
  let pp1 :=
    match gene with
    | 0 => { pp with gene0 := pp.gene0 + p }
    | 1 => { pp with gene1 := pp.gene1 + p }
    | 2 => { pp with gene2 := pp.gene2 + p }
    | _ => pp
  match t with
  | true => { pp1 with traitTrue := pp1.traitTrue + p }
  | false => { pp1 with traitFalse := pp1.traitFalse + p }

/-- update (src/heredity.py lines 235-263): add the joint probability p into
the bucket of every person selected by the rebuilt request. -/
def update (probabilities : α → PersonProbs) (names : List α)
    (one_gene two_genes have_trait : List α) (p : ℚ) : α → PersonProbs :=
  names.foldl (fun probs name =>
    Function.update probs name
      (addMass (probs name)
        (request one_gene two_genes have_trait name).gene
        (request one_gene two_genes have_trait name).trait p)) probabilities

/-- The gene-partition double loop of main (src/heredity.py lines 98-99):
all pairs (one_gene, two_genes) with two_genes drawn from names - one_gene. -/
def gene_hypotheses (names : List α) : List (List α × List α) :=
  (powerset names).flatMap (fun one_gene =>
    (powerset (names.filter (fun x => decide (x ∉ one_gene)))).map
      (fun two_genes => (one_gene, two_genes)))

/-- The full hypothesis triple space (have_trait, one_gene, two_genes)
before evidence filtering: the loops of main without the continue. -/
def all_hypotheses (names : List α) : List (List α × List α × List α) :=
  (powerset names).flatMap (fun have_trait =>
    (gene_hypotheses names).map (fun p => (have_trait, p.1, p.2)))

/-- The hypothesis triples actually evaluated by main (src/heredity.py lines
86-99): trait sets violating evidence are skipped before the gene loops. -/
def hypothesis_list (people : Pedigree α) : List (List α × List α × List α) :=
  ((powerset people.names).filter
      (fun have_trait => !fails_evidence people have_trait)).flatMap
    (fun have_trait =>
      (gene_hypotheses people.names).map (fun p => (have_trait, p.1, p.2)))

/-- The accumulator as initialized by main (src/heredity.py lines 69-82). -/
def initProbs : α → PersonProbs := fun _ => ⟨0, 0, 0, 0, 0⟩

/-- One iteration of the enumeration loop of main (src/heredity.py lines
101-103): evaluate the joint probability and fold it into the accumulator.
The getD is justified by joint_probability_eq_some: on the requests main
builds, joint_probability never crashes. -/
def runStep (people : Pedigree α) (probs : α → PersonProbs)
    (h : List α × List α × List α) : α → PersonProbs :=
  update probs people.names h.2.1 h.2.2 h.1
    ((joint_probability people h.2.1 h.2.2 h.1).getD 0)

/-- The whole enumeration-and-accumulation phase of main (src/heredity.py
lines 84-103). -/
def run (people : Pedigree α) : α → PersonProbs :=
  (hypothesis_list people).foldl (runStep people) initProbs

/-- The sum of a person's three gene buckets (gene_sum of normalize,
src/heredity.py line 272). -/
def geneSum (pp : PersonProbs) : ℚ := pp.gene0 + pp.gene1 + pp.gene2

/-- The sum of a person's two trait buckets (trait_sum of normalize,
src/heredity.py line 273). -/
def traitSum (pp : PersonProbs) : ℚ := pp.traitFalse + pp.traitTrue

/-- The trait bucket of an accumulator entry selected by a trait status. -/
def traitBucket (pp : PersonProbs) (b : Bool) : ℚ :=
  if b then pp.traitTrue else pp.traitFalse

/-- Dividing one person's buckets by their totals (the loop body of
normalize, src/heredity.py lines 274-278); `none` models the
ZeroDivisionError raised when a total is zero. -/
def normalizePerson (pp : PersonProbs) : Option PersonProbs :=
  if geneSum pp = 0 then none
  else if traitSum pp = 0 then none
  else some ⟨pp.gene0 / geneSum pp, pp.gene1 / geneSum pp, pp.gene2 / geneSum pp,
    pp.traitTrue / traitSum pp, pp.traitFalse / traitSum pp⟩

/-- One iteration of the normalize loop: replace one person's entry by its
normalized entry, or abort. -/
def nstep (probs : α → PersonProbs) (person : α) : Option (α → PersonProbs) :=
  (normalizePerson (probs person)).map (Function.update probs person)

/-- normalize (src/heredity.py lines 266-278): divide every person's buckets
by their totals; a zero total aborts the run with a ZeroDivisionError. -/
def normalize (names : List α) (probabilities : α → PersonProbs) :
    Option (α → PersonProbs) :=
  names.foldlM nstep probabilities

/-- The normalized entry of one person: each bucket divided by its total. -/
def normEntry (pp : PersonProbs) : PersonProbs :=
  ⟨pp.gene0 / geneSum pp, pp.gene1 / geneSum pp, pp.gene2 / geneSum pp,
    pp.traitTrue / traitSum pp, pp.traitFalse / traitSum pp⟩

/-- A one-person accumulator state used as a concrete normalization input. -/
def probs0 : ℕ → PersonProbs := fun _ => ⟨1, 2, 1, 3, 1⟩

/-- A three-person test pedigree: person 0 is the child of 1 (mother) and
2 (father); 1 and 2 are founders. -/
def fam : Pedigree ℕ :=
  ⟨[0, 1, 2], fun n =>
    if n = 0 then ⟨some 1, some 2, none⟩ else ⟨none, none, none⟩⟩

/-- A request for the test pedigree assigning the mother mg copies, the
father fg copies and the child cg copies of the gene. -/
def famRequest (mg fg cg : ℕ) : ℕ → Request := fun n =>
  if n = 1 then ⟨mg, false⟩ else if n = 2 then ⟨fg, false⟩ else ⟨cg, false⟩

/-- A pedigree holding a single founder with no trait observation. -/
def solo : Pedigree ℕ := ⟨[0], fun _ => ⟨none, none, none⟩⟩

/-- A pedigree holding a single founder observed to exhibit the trait. -/
def soloT : Pedigree ℕ := ⟨[0], fun _ => ⟨none, none, some true⟩⟩

/-- The spec's mutant-transmission probability of a parent: the entry of the
parent-transmission table for passing one mutated allele. -/
def transmit (g : ℕ) : ℚ := (PARENT_PROB_parent g 1).getD 0

/-- The spec's parent-conditioned child gene-count distribution, where m and
f are the two parents' mutant-transmission probabilities. -/
def parent_conditioned (m f : ℚ) : ℕ → ℚ
  | 0 => (1 - m) * (1 - f)
  | 1 => m * (1 - f) + (1 - m) * f
  | 2 => m * f
  | _ => 0

/-- The spec's per-person gene-count factor: the parent-conditioned
transmission formula for a non-founder, the unconditional gene prior for a
founder. -/
def gene_factor (people : Pedigree α) (gene : α → ℕ) (name : α) : ℚ :=
  match (people.person name).mother, (people.person name).father with
  | some mum, some dad =>
    parent_conditioned (transmit (gene mum)) (transmit (gene dad)) (gene name)
  | _, _ => (PROBS_gene (gene name)).getD 0

/-- The spec's factorization of the joint probability: the product, over all
people, of the trait-given-gene table entry times the per-person gene-count
factor. -/
def jointSpec (people : Pedigree α) (one_gene two_genes have_trait : List α) : ℚ :=
  (people.names.map (fun name =>
    (PROBS_trait (gene_no one_gene two_genes name) (decide (name ∈ have_trait))).getD 0 *
      gene_factor people (gene_no one_gene two_genes) name)).prod

theorem gene_no_lt_three (one_gene two_genes : List α) (name : α) :
    gene_no one_gene two_genes name < 3 := by
  unfold gene_no
  split
  · omega
  · split <;> omega

theorem PARENT_PROB_parent_zero {g : ℕ} (hg : g < 3) :
    PARENT_PROB_parent g 0 = some (1 - transmit g) := by
  interval_cases g <;> norm_num [PARENT_PROB_parent, transmit, PROBS_mutation]

theorem PARENT_PROB_parent_one {g : ℕ} (hg : g < 3) :
    PARENT_PROB_parent g 1 = some (transmit g) := by
  interval_cases g <;> norm_num [PARENT_PROB_parent, transmit, PROBS_mutation]

theorem PROBS_gene_eq_getD {g : ℕ} (hg : g < 3) :
    PROBS_gene g = some ((PROBS_gene g).getD 0) := by
  interval_cases g <;> rfl

theorem PROBS_trait_eq_getD {g : ℕ} (hg : g < 3) (b : Bool) :
    PROBS_trait g b = some ((PROBS_trait g b).getD 0) := by
  interval_cases g <;> cases b <;> rfl

omit [DecidableEq α] in
/-- On a request whose relevant gene counts lie in 0/1/2, a person with both
parents recorded gets exactly the spec's parent-conditioned probability. -/
theorem child_parent_prob_parents (people : Pedigree α) (req : α → Request)
    (child mum dad : α)
    (hm : (people.person child).mother = some mum)
    (hf : (people.person child).father = some dad)
    (hc : (req child).gene < 3) (hmu : (req mum).gene < 3) (hd : (req dad).gene < 3) :
    child_parent_prob child people req =
      some (parent_conditioned (transmit (req mum).gene) (transmit (req dad).gene)
        (req child).gene) := by
  have h3 : (req child).gene = 0 ∨ (req child).gene = 1 ∨ (req child).gene = 2 := by omega
  unfold child_parent_prob
  rw [hm, hf]
  rcases h3 with h | h | h <;>
    simp only [h, PARENT_PROB_parent_zero hmu, PARENT_PROB_parent_zero hd,
      PARENT_PROB_parent_one hmu, PARENT_PROB_parent_one hd, Option.bind_eq_bind,
      Option.some_bind, reduceIte, reduceCtorEq] <;> rfl

/-- On a request built from gene_no, child_parent_prob never crashes and
computes exactly the spec's per-person gene-count factor. -/
theorem child_parent_prob_eq (people : Pedigree α)
    (one_gene two_genes have_trait : List α) (name : α)
    (hwf : ((people.person name).mother).isSome → ((people.person name).father).isSome) :
    child_parent_prob name people (request one_gene two_genes have_trait) =
      some (gene_factor people (gene_no one_gene two_genes) name) := by
  cases hm : (people.person name).mother with
  | none =>
    simp only [child_parent_prob, gene_factor, hm]
    exact PROBS_gene_eq_getD (gene_no_lt_three _ _ _)
  | some mum =>
    have hf' : ((people.person name).father).isSome := hwf (by simp [hm])
    obtain ⟨dad, hf⟩ := Option.isSome_iff_exists.mp hf'
    rw [child_parent_prob_parents people (request one_gene two_genes have_trait) name mum dad
      hm hf (gene_no_lt_three _ _ _) (gene_no_lt_three _ _ _) (gene_no_lt_three _ _ _)]
    simp [gene_factor, hm, hf, request]

theorem jstep_eq_some (people : Pedigree α)
    (one_gene two_genes have_trait : List α) (acc : ℚ) (name : α)
    (hwf : ((people.person name).mother).isSome → ((people.person name).father).isSome) :
    jstep people one_gene two_genes have_trait acc name =
      some (acc *
        (gene_factor people (gene_no one_gene two_genes) name *
          (PROBS_trait (gene_no one_gene two_genes name) (decide (name ∈ have_trait))).getD 0)) := by
  have ha := child_parent_prob_eq people one_gene two_genes have_trait name hwf
  have ht : PROBS_trait (request one_gene two_genes have_trait name).gene
      (request one_gene two_genes have_trait name).trait =
      some ((PROBS_trait (gene_no one_gene two_genes name)
        (decide (name ∈ have_trait))).getD 0) := by
    simpa [request] using
      PROBS_trait_eq_getD (gene_no_lt_three one_gene two_genes name)
        (decide (name ∈ have_trait))
  unfold jstep
  rw [ha, ht]
  rfl

theorem joint_fold (people : Pedigree α) (one_gene two_genes have_trait : List α) :
    ∀ (names : List α) (acc : ℚ),
      (∀ name ∈ names,
        ((people.person name).mother).isSome → ((people.person name).father).isSome) →
      (names.foldlM (jstep people one_gene two_genes have_trait) acc : Option ℚ) =
      some (acc * (names.map (fun name =>
        (PROBS_trait (gene_no one_gene two_genes name) (decide (name ∈ have_trait))).getD 0 *
          gene_factor people (gene_no one_gene two_genes) name)).prod)
  | [], acc, _ => by simp
  | a :: l, acc, hwf => by
    rw [List.foldlM_cons,
      jstep_eq_some people one_gene two_genes have_trait acc a (hwf a (List.mem_cons_self a l))]
    simp only [Option.bind_eq_bind, Option.some_bind, List.map_cons, List.prod_cons]
    rw [joint_fold people one_gene two_genes have_trait l _
      (fun name hn => hwf name (List.mem_cons_of_mem a hn))]
    exact congrArg some (by ring)

/-- joint_probability never crashes on the requests main builds, and its
value is the spec's factorized product. -/
theorem joint_probability_eq_some (people : Pedigree α)
    (one_gene two_genes have_trait : List α)
    (hwf : ∀ name ∈ people.names,
      ((people.person name).mother).isSome → ((people.person name).father).isSome) :
    joint_probability people one_gene two_genes have_trait =
      some (jointSpec people one_gene two_genes have_trait) := by
  unfold joint_probability jointSpec
  rw [joint_fold people one_gene two_genes have_trait people.names 1 hwf, one_mul]

/-- Claim C1, settled as a code bug: the committed program cannot return
anything (it fails to parse at heredity.py:233, the mis-indented return of
child_parent_prob).  This theorem proves the claim of the intended program
(that one return dedented): for every pedigree whose recorded mothers come
with recorded fathers and every fully-specified hypothesis,
joint_probability returns (without crashing) the product, over all people,
of the trait-given-gene table entry for the person's hypothesized gene
count and trait status times the parent-conditioned gene probability (from
the two parents' hypothesized gene counts via the transmission table) for
a non-founder, or the unconditional gene prior for a founder. -/
theorem c1_joint_probability_factorization (people : Pedigree α)
    (one_gene two_genes have_trait : List α)
    (hwf : ∀ name ∈ people.names,
      ((people.person name).mother).isSome → ((people.person name).father).isSome) :
    joint_probability people one_gene two_genes have_trait =
      some (jointSpec people one_gene two_genes have_trait) :=
  joint_probability_eq_some people one_gene two_genes have_trait hwf

/-- Witness for C1: the factorization theorem applied to the test pedigree
and a concrete hypothesis. -/
theorem c1_joint_probability_factorization_witness :
    joint_probability fam [1] [0] [2] = some (jointSpec fam [1] [0] [2]) :=
  c1_joint_probability_factorization fam [1] [0] [2] (by decide)

omit [DecidableEq α] in
theorem combinations_perm_sublistsLen : ∀ (r : ℕ) (l : List α),
    List.Perm (combinations r l) (List.sublistsLen r l)
  | 0, l => by simp [combinations, List.sublistsLen_zero]
  | _ + 1, [] => by simp [combinations, List.sublistsLen_succ_nil]
  | r + 1, x :: xs => by
    rw [combinations, List.sublistsLen_succ_cons]
    exact (List.Perm.append ((combinations_perm_sublistsLen r xs).map _)
      (combinations_perm_sublistsLen (r + 1) xs)).trans List.perm_append_comm

omit [DecidableEq α] in
/-- powerset chains the r-combinations for all r, so up to order it is the
list of all sublists. -/
theorem powerset_perm_sublists' (l : List α) : List.Perm (powerset l) l.sublists' :=
  (List.Perm.flatMap_left (List.range (l.length + 1))
      (fun r _ => combinations_perm_sublistsLen r l)).trans
    (List.range_bind_sublistsLen_perm l)

/-- In a duplicate-free list every member occurs exactly once. -/
theorem countP_eq_one_of_nodup {β : Type} [DecidableEq β] {L : List β}
    (hnd : L.Nodup) {b : β} (hb : b ∈ L) :
    L.countP (fun m => decide (m = b)) = 1 := by
  induction L with
  | nil => cases hb
  | cons a L ih =>
    obtain ⟨ha, hnd'⟩ := List.nodup_cons.mp hnd
    rw [List.countP_cons]
    rcases List.mem_cons.mp hb with rfl | hbL
    · rw [List.countP_eq_zero.mpr]
      · simp
      · intro m hm
        simp only [decide_eq_true_eq]
        exact fun h => ha (h ▸ hm)
    · have hab : ¬(a = b) := fun h => ha (h ▸ hbL)
      rw [ih hnd' hbL]
      simp [hab]

/-- Claim C10: on a duplicate-free list of n elements, powerset returns a
list of exactly 2 ^ n subsets in which every subset (as a sublist, which for
duplicate-free input represents every subset of the underlying set, the
empty set and the whole set included) occurs exactly once. -/
theorem c10_powerset_exact (s : List α) (hnd : s.Nodup) :
    (powerset s).length = 2 ^ s.length ∧
    (∀ l ∈ powerset s, l.Sublist s) ∧
    (∀ l, l.Sublist s → (powerset s).countP (fun m => decide (m = l)) = 1) := by
  have hp := powerset_perm_sublists' s
  refine ⟨?_, ?_, ?_⟩
  · rw [hp.length_eq, List.length_sublists']
  · intro l hl
    exact List.mem_sublists'.mp (hp.mem_iff.mp hl)
  · intro l hl
    rw [List.Perm.countP_eq _ hp]
    exact countP_eq_one_of_nodup (List.nodup_sublists'.mpr hnd)
      (List.mem_sublists'.mpr hl)

/-- Witness for C10: on the two-element list the powerset has length 4 and
the subset containing only the second element occurs exactly once. -/
theorem c10_powerset_exact_witness :
    (powerset [0, 1]).length = 2 ^ 2 ∧
    (powerset [0, 1]).countP (fun m => decide (m = [1])) = 1 :=
  ⟨(c10_powerset_exact [0, 1] (by decide)).1,
    (c10_powerset_exact [0, 1] (by decide)).2.2 [1]
      ((List.nil_sublist []).cons₂ 1 |>.cons 0)⟩

theorem all_mem_cons_eq {a : α} {l : List α} (t : α → Bool) (ha : a ∉ l) (s : List α) :
    l.all (fun x => decide (x ∈ a :: s) == t x) = l.all (fun x => decide (x ∈ s) == t x) := by
  induction l with
  | nil => rfl
  | cons y l ih =>
    have hya : ¬(y = a) := fun h => ha (h ▸ List.mem_cons_self y l)
    simp only [List.all_cons,
      ih (fun h => ha (List.mem_cons_of_mem y h))]
    congr 1
    simp [List.mem_cons, hya]

/-- Among the sublists of a duplicate-free list, exactly one has any given
membership pattern. -/
theorem countP_mem_char (t : α → Bool) : ∀ (l : List α), l.Nodup →
    (l.sublists').countP (fun s => l.all (fun x => decide (x ∈ s) == t x)) = 1
  | [], _ => by simp [List.sublists']
  | a :: l, hnd => by
    obtain ⟨ha, hnd'⟩ := List.nodup_cons.mp hnd
    rw [List.sublists'_cons, List.countP_append, List.countP_map]
    have hnotmem : ∀ s ∈ l.sublists', a ∉ s := fun s hs hmem =>
      ha ((List.mem_sublists'.mp hs).mem hmem)
    have h1 : (l.sublists').countP (fun s => (a :: l).all fun x => decide (x ∈ s) == t x)
        = if t a then 0 else 1 := by
      cases hta : t a with
      | true =>
        rw [if_pos rfl, List.countP_eq_zero]
        intro s hs
        rw [List.all_cons]
        simp [hnotmem s hs, hta]
      | false =>
        rw [if_neg (by simp), ← countP_mem_char t l hnd']
        apply List.countP_congr
        intro s hs
        rw [List.all_cons]
        simp [hnotmem s hs, hta]
    have h2 : (l.sublists').countP
          ((fun s => (a :: l).all fun x => decide (x ∈ s) == t x) ∘ (a :: ·))
        = if t a then 1 else 0 := by
      cases hta : t a with
      | true =>
        rw [if_pos rfl, ← countP_mem_char t l hnd']
        apply List.countP_congr
        intro s _
        simp only [Function.comp_apply]
        rw [List.all_cons, all_mem_cons_eq t ha s]
        simp [hta]
      | false =>
        rw [if_neg (by simp), List.countP_eq_zero]
        intro s _
        simp only [Function.comp_apply]
        rw [List.all_cons]
        simp [hta]
    rw [h1, h2]
    cases t a <;> rfl

/-- The powerset version of countP_mem_char. -/
theorem countP_mem_char_powerset (t : α → Bool) (l : List α) (hnd : l.Nodup) :
    (powerset l).countP (fun s => l.all (fun x => decide (x ∈ s) == t x)) = 1 := by
  rw [List.Perm.countP_eq _ (powerset_perm_sublists' l)]
  exact countP_mem_char t l hnd

omit [DecidableEq α] in
/-- Claim C6, settled as a code bug: the committed child_parent_prob never
returns (its only return statement, heredity.py:233, fails to parse).
This theorem proves the claim of the intended function: in any hypothesis,
a person with no recorded mother (a founder) contributes the unconditional
gene-prior entry for their hypothesized gene count, never the
parent-conditioned formula, regardless of every other value in the
request. -/
theorem c6_founder_uses_gene_prior (people : Pedigree α) (child : α)
    (req : α → Request) (hm : (people.person child).mother = none) :
    child_parent_prob child people req = PROBS_gene (req child).gene := by
  simp only [child_parent_prob, hm]

/-- Witness for C6: a founder of the test pedigree with one copy of the
gene contributes the prior entry 0.03. -/
theorem c6_founder_uses_gene_prior_witness :
    child_parent_prob 1 fam (fun n => ⟨n, false⟩) = some (3/100) :=
  (c6_founder_uses_gene_prior fam 1 (fun n => ⟨n, false⟩) rfl).trans (by norm_num [PROBS_gene])

theorem transmit_bounds {g : ℕ} (hg : g < 3) : 0 ≤ transmit g ∧ transmit g ≤ 1 := by
  interval_cases g <;> norm_num [transmit, PARENT_PROB_parent, PROBS_mutation]

theorem PARENT_PROB_parent_bounds {g b : ℕ} {q : ℚ}
    (h : PARENT_PROB_parent g b = some q) : 0 ≤ q ∧ q ≤ 1 := by
  unfold PARENT_PROB_parent at h
  split at h <;> simp only [Option.some.injEq, reduceCtorEq] at h <;>
    rw [← h] <;> norm_num [PROBS_mutation]

theorem PROBS_gene_nonneg {g : ℕ} {q : ℚ} (h : PROBS_gene g = some q) : 0 ≤ q := by
  unfold PROBS_gene at h
  split at h <;> simp only [Option.some.injEq, reduceCtorEq] at h <;>
    rw [← h] <;> norm_num

theorem PROBS_trait_nonneg {g : ℕ} {b : Bool} {q : ℚ}
    (h : PROBS_trait g b = some q) : 0 ≤ q := by
  unfold PROBS_trait at h
  split at h <;> simp only [Option.some.injEq, reduceCtorEq] at h <;>
    rw [← h] <;> norm_num

omit [DecidableEq α] in
/-- Every value child_parent_prob actually returns is non-negative. -/
theorem child_parent_prob_nonneg {child : α} {people : Pedigree α}
    {req : α → Request} {q : ℚ}
    (h : child_parent_prob child people req = some q) : 0 ≤ q := by
  cases hm : (people.person child).mother with
  | none =>
    simp only [child_parent_prob, hm] at h
    exact PROBS_gene_nonneg h
  | some mum =>
    cases hfa : (people.person child).father with
    | none =>
      simp only [child_parent_prob, hm, hfa] at h
      exact absurd h (by simp)
    | some dad =>
      simp only [child_parent_prob, hm, hfa, Option.bind_eq_bind, Option.pure_def] at h
      split at h
      · simp only [Option.bind_eq_some, Option.some.injEq] at h
        obtain ⟨a, ha, b, hb, rfl⟩ := h
        exact mul_nonneg (PARENT_PROB_parent_bounds ha).1 (PARENT_PROB_parent_bounds hb).1
      · split at h
        · simp only [Option.bind_eq_some, Option.some.injEq] at h
          obtain ⟨a, ha, b, hb, rfl⟩ := h
          have hA := PARENT_PROB_parent_bounds ha
          have hB := PARENT_PROB_parent_bounds hb
          have h1 : (0:ℚ) ≤ 1 - b := by linarith [hB.2]
          have h2 : (0:ℚ) ≤ 1 - a := by linarith [hA.2]
          exact add_nonneg (mul_nonneg hA.1 h1) (mul_nonneg h2 hB.1)
        · split at h
          · simp only [Option.bind_eq_some, Option.some.injEq] at h
            obtain ⟨a, ha, b, hb, rfl⟩ := h
            exact mul_nonneg (PARENT_PROB_parent_bounds ha).1 (PARENT_PROB_parent_bounds hb).1
          · exact absurd h (by simp)

theorem joint_fold_nonneg (people : Pedigree α) (one_gene two_genes have_trait : List α) :
    ∀ (names : List α) (acc : ℚ), 0 ≤ acc →
      0 ≤ ((names.foldlM (jstep people one_gene two_genes have_trait) acc : Option ℚ)).getD 0
  | [], acc, h => by simpa
  | a :: l, acc, h => by
    rw [List.foldlM_cons]
    cases hs : jstep people one_gene two_genes have_trait acc a with
    | none => simp [hs]
    | some v =>
      have hv : 0 ≤ v := by
        unfold jstep at hs
        simp only [Option.bind_eq_bind, Option.pure_def, Option.bind_eq_some,
          Option.some.injEq] at hs
        obtain ⟨cp, hcp, tp, htp, rfl⟩ := hs
        exact mul_nonneg h (mul_nonneg (child_parent_prob_nonneg hcp) (PROBS_trait_nonneg htp))
      simp only [Option.bind_eq_bind, Option.some_bind]
      exact joint_fold_nonneg people one_gene two_genes have_trait l v hv

/-- The value main extracts from joint_probability is never negative. -/
theorem joint_probability_getD_nonneg (people : Pedigree α)
    (one_gene two_genes have_trait : List α) :
    0 ≤ (joint_probability people one_gene two_genes have_trait).getD 0 :=
  joint_fold_nonneg people one_gene two_genes have_trait people.names 1 (by norm_num)

/-- Claim C3, settled as a code bug: the committed child_parent_prob never
parses (heredity.py:233), so it computes no probabilities at all.  This
theorem proves the claim of the intended function: for any pair of parent
gene counts in 0/1/2, the three child gene-count probabilities it computes
(the formulas (1-m)(1-f), m(1-f)+(1-m)f and m·f over the
transmission-table entries) sum exactly to 1, here evaluated on the test
pedigree. -/
theorem c3_transmission_completeness (mg fg : ℕ) (hm : mg < 3) (hf : fg < 3) :
    (child_parent_prob 0 fam (famRequest mg fg 0)).getD 0 +
    (child_parent_prob 0 fam (famRequest mg fg 1)).getD 0 +
    (child_parent_prob 0 fam (famRequest mg fg 2)).getD 0 = 1 := by
  interval_cases mg <;> interval_cases fg <;>
    norm_num [child_parent_prob, fam, famRequest, PARENT_PROB_parent, PROBS_mutation,
      Option.bind_eq_bind, Option.some_bind]

/-- Witness for C3: with a one-copy mother and a two-copy father the three
child probabilities sum to 1. -/
theorem c3_transmission_completeness_witness :
    (child_parent_prob 0 fam (famRequest 1 2 0)).getD 0 +
    (child_parent_prob 0 fam (famRequest 1 2 1)).getD 0 +
    (child_parent_prob 0 fam (famRequest 1 2 2)).getD 0 = 1 :=
  c3_transmission_completeness 1 2 (by norm_num) (by norm_num)

/-- Claim C9, settled as a code bug: the committed child_parent_prob never
parses — the very return statement the claim's fail-fast behavior lives at
(heredity.py:233) is the mis-indented line — so there is neither a
fall-through error nor an in-range return.  This theorem proves the claim
of the intended function: for a person with both parents recorded, a
requested gene count outside 0/1/2 makes child_parent_prob fail fast (the
if/elif chain falls through and the function crashes, modelled as `none`);
when the enumerator's precondition holds (all relevant gene counts in
0/1/2) that error branch is unreachable and the evaluation returns a
value, which is non-negative; and the number main extracts from
joint_probability is always finite and non-negative (a rational). -/
theorem c9_gene_range_safety (people : Pedigree α) (req : α → Request)
    (child mum dad : α) (one_gene two_genes have_trait : List α)
    (hm : (people.person child).mother = some mum)
    (hf : (people.person child).father = some dad) :
    (3 ≤ (req child).gene → child_parent_prob child people req = none) ∧
    ((req child).gene < 3 → (req mum).gene < 3 → (req dad).gene < 3 →
      ∃ q, child_parent_prob child people req = some q ∧ 0 ≤ q) ∧
    0 ≤ (joint_probability people one_gene two_genes have_trait).getD 0 := by
  refine ⟨?_, ?_, joint_probability_getD_nonneg people one_gene two_genes have_trait⟩
  · intro hge
    unfold child_parent_prob
    rw [hm, hf]
    have h0 : ¬((req child).gene = 0) := by omega
    have h1 : ¬((req child).gene = 1) := by omega
    have h2 : ¬((req child).gene = 2) := by omega
    simp only [h0, h1, h2, if_false]
  · intro hc hmu hd
    refine ⟨parent_conditioned (transmit (req mum).gene) (transmit (req dad).gene)
      (req child).gene,
      child_parent_prob_parents people req child mum dad hm hf hc hmu hd, ?_⟩
    have hM := transmit_bounds hmu
    have hF := transmit_bounds hd
    have h3 : (req child).gene = 0 ∨ (req child).gene = 1 ∨ (req child).gene = 2 := by omega
    rcases h3 with h | h | h <;> rw [h] <;> unfold parent_conditioned
    · have h1 : (0:ℚ) ≤ 1 - transmit (req mum).gene := by linarith [hM.2]
      have h2 : (0:ℚ) ≤ 1 - transmit (req dad).gene := by linarith [hF.2]
      exact mul_nonneg h1 h2
    · have h1 : (0:ℚ) ≤ 1 - transmit (req mum).gene := by linarith [hM.2]
      have h2 : (0:ℚ) ≤ 1 - transmit (req dad).gene := by linarith [hF.2]
      exact add_nonneg (mul_nonneg hM.1 h2) (mul_nonneg h1 hF.1)
    · exact mul_nonneg hM.1 hF.1

/-- Witness for C9: on the test pedigree, a request giving the child five
copies crashes child_parent_prob, and an in-range request returns a
non-negative value; the extracted joint probability is non-negative. -/
theorem c9_gene_range_safety_witness :
    child_parent_prob 0 fam (famRequest 1 2 5) = none ∧
    (∃ q, child_parent_prob 0 fam (famRequest 1 2 2) = some q ∧ 0 ≤ q) ∧
    0 ≤ (joint_probability fam [0] [1] [2]).getD 0 :=
  ⟨(c9_gene_range_safety fam (famRequest 1 2 5) 0 1 2 [0] [1] [2] rfl rfl).1 (by decide),
    (c9_gene_range_safety fam (famRequest 1 2 2) 0 1 2 [0] [1] [2] rfl rfl).2.1
      (by decide) (by decide) (by decide),
    (c9_gene_range_safety fam (famRequest 1 2 2) 0 1 2 [0] [1] [2] rfl rfl).2.2⟩

/-- Pointwise description of update on a duplicate-free key list: every
listed person gets the mass added into the buckets its rebuilt request
selects; everyone else is untouched. -/
theorem update_apply (one_gene two_genes have_trait : List α) (p : ℚ) :
    ∀ (names : List α) (probabilities : α → PersonProbs), names.Nodup → ∀ q : α,
      update probabilities names one_gene two_genes have_trait p q =
        if q ∈ names then
          addMass (probabilities q) (request one_gene two_genes have_trait q).gene
            (request one_gene two_genes have_trait q).trait p
        else probabilities q
  | [], probs, _, q => by simp [update]
  | a :: l, probs, hnd, q => by
    obtain ⟨ha, hnd'⟩ := List.nodup_cons.mp hnd
    have hstep : update probs (a :: l) one_gene two_genes have_trait p =
        update (Function.update probs a
          (addMass (probs a) (request one_gene two_genes have_trait a).gene
            (request one_gene two_genes have_trait a).trait p))
          l one_gene two_genes have_trait p := rfl
    rw [hstep, update_apply one_gene two_genes have_trait p l _ hnd' q]
    by_cases hq : q ∈ l
    · have hqa : ¬(q = a) := fun h => ha (h ▸ hq)
      simp [hq, hqa, Function.update_apply, List.mem_cons]
    · by_cases hqa : q = a
      · subst hqa
        simp [hq, Function.update_apply]
      · simp [hq, hqa, Function.update_apply, List.mem_cons]

omit [DecidableEq α] in
/-- addMass never touches the bucket of the opposite trait status. -/
theorem addMass_traitBucket_other (pp : PersonProbs) (g : ℕ) (b : Bool) (p : ℚ) :
    traitBucket (addMass pp g b p) (!b) = traitBucket pp (!b) := by
  cases b <;> rcases g with _ | _ | _ | g <;> simp [addMass, traitBucket]

/-- Every trait set occurring in the evaluated hypothesis list passed the
evidence filter. -/
theorem mem_hypothesis_list_evidence {people : Pedigree α}
    {h : List α × List α × List α} (hmem : h ∈ hypothesis_list people) :
    fails_evidence people h.1 = false := by
  unfold hypothesis_list at hmem
  simp only [List.mem_flatMap, List.mem_map, List.mem_filter] at hmem
  obtain ⟨ht, ⟨_, hev⟩, pr, _, rfl⟩ := hmem
  simpa using hev

/-- A trait set that passes the evidence filter agrees with every known
trait observation. -/
theorem fails_evidence_eq_false {people : Pedigree α} {have_trait : List α}
    (hev : fails_evidence people have_trait = false) {person : α} {t : Bool}
    (hp : person ∈ people.names) (htr : (people.person person).trait = some t) :
    decide (person ∈ have_trait) = t := by
  unfold fails_evidence at hev
  rw [List.any_eq_false] at hev
  have h1 := hev person hp
  rw [htr] at h1
  cases htb : t <;> cases hd : decide (person ∈ have_trait) <;> simp_all

theorem run_fold_other_bucket (people : Pedigree α) (person : α) (t : Bool)
    (hnd : people.names.Nodup) (hp : person ∈ people.names) :
    ∀ (L : List (List α × List α × List α)) (probs : α → PersonProbs),
      (∀ h ∈ L, decide (person ∈ h.1) = t) →
      traitBucket ((L.foldl (runStep people) probs) person) (!t) =
        traitBucket (probs person) (!t)
  | [], _, _ => rfl
  | h :: L, probs, hall => by
    rw [List.foldl_cons,
      run_fold_other_bucket people person t hnd hp L _
        (fun h' hm => hall h' (List.mem_cons_of_mem h hm))]
    unfold runStep
    rw [update_apply h.2.1 h.2.2 h.1 _ people.names probs hnd person, if_pos hp]
    have hreq : (request h.2.1 h.2.2 h.1 person).trait = t := by
      simp only [request]
      exact hall h (List.mem_cons_self h L)
    rw [hreq]
    exact addMass_traitBucket_other (probs person) _ t _

/-- Claim C4, settled as a code bug: the committed program never
accumulates anything, since the module fails to parse (heredity.py:233)
and main never runs.  This theorem proves the claim of the intended
program: for a person with a known trait observation, every hypothesis
assigning the opposite trait status is skipped before evaluation (no such
triple reaches the evaluated hypothesis list), and at every point of the
whole accumulation run the person's opposite trait bucket still holds
exactly its initial 0: no probability mass is ever added there. -/
theorem c4_evidence_consistency (people : Pedigree α) (person : α) (t : Bool)
    (hnd : people.names.Nodup) (hp : person ∈ people.names)
    (htr : (people.person person).trait = some t) :
    (∀ h ∈ hypothesis_list people, decide (person ∈ h.1) = t) ∧
    (∀ n : ℕ, traitBucket
      ((((hypothesis_list people).take n).foldl (runStep people) initProbs) person)
      (!t) = 0) := by
  have h1 : ∀ h ∈ hypothesis_list people, decide (person ∈ h.1) = t :=
    fun h hm => fails_evidence_eq_false (mem_hypothesis_list_evidence hm) hp htr
  refine ⟨h1, fun n => ?_⟩
  rw [run_fold_other_bucket people person t hnd hp ((hypothesis_list people).take n)
    initProbs (fun h hm => h1 h (List.take_subset n _ hm))]
  cases t <;> rfl

/-- Witness for C4: the one-person pedigree with an observed trait; the
first evaluated hypothesis assigns the trait, and after two accumulation
steps the no-trait bucket is still 0. -/
theorem c4_evidence_consistency_witness :
    decide ((0 : ℕ) ∈ (([0], [], []) : List ℕ × List ℕ × List ℕ).1) = true ∧
    traitBucket ((((hypothesis_list soloT).take 2).foldl (runStep soloT) initProbs) 0)
      (!true) = 0 :=
  ⟨(c4_evidence_consistency soloT 0 true (by decide) (by decide) rfl).1
      ([0], [], []) (by decide),
    (c4_evidence_consistency soloT 0 true (by decide) (by decide) rfl).2 2⟩

omit [DecidableEq α] in
theorem normalizePerson_some {pp : PersonProbs}
    (hg : geneSum pp ≠ 0) (ht : traitSum pp ≠ 0) :
    normalizePerson pp = some (normEntry pp) := by
  simp [normalizePerson, normEntry, hg, ht]

/-- Pointwise description of normalize on a duplicate-free key list with
non-zero totals: every listed person's entry is replaced by its normalized
entry. -/
theorem normalize_some : ∀ (names : List α) (probs : α → PersonProbs), names.Nodup →
    (∀ q ∈ names, geneSum (probs q) ≠ 0 ∧ traitSum (probs q) ≠ 0) →
    normalize names probs =
      some (fun q => if q ∈ names then normEntry (probs q) else probs q)
  | [], probs, _, _ => by simp [normalize]
  | a :: l, probs, hnd, hpos => by
    obtain ⟨ha, hnd'⟩ := List.nodup_cons.mp hnd
    have hsa := hpos a (List.mem_cons_self a l)
    unfold normalize
    rw [List.foldlM_cons]
    have hstep : nstep probs a = some (Function.update probs a (normEntry (probs a))) := by
      simp [nstep, normalizePerson_some hsa.1 hsa.2]
    rw [hstep]
    simp only [Option.bind_eq_bind, Option.some_bind]
    have hpos' : ∀ q ∈ l,
        geneSum ((Function.update probs a (normEntry (probs a))) q) ≠ 0 ∧
        traitSum ((Function.update probs a (normEntry (probs a))) q) ≠ 0 := by
      intro q hq
      rw [Function.update_apply, if_neg (fun h : q = a => ha (h ▸ hq))]
      exact hpos q (List.mem_cons_of_mem a hq)
    rw [show l.foldlM nstep (Function.update probs a (normEntry (probs a))) =
      normalize l (Function.update probs a (normEntry (probs a))) from rfl]
    rw [normalize_some l _ hnd' hpos']
    refine congrArg some (funext fun q => ?_)
    by_cases hq : q ∈ l
    · have hqa : ¬(q = a) := fun h => ha (h ▸ hq)
      simp [hq, hqa, Function.update_apply, List.mem_cons]
    · by_cases hqa : q = a
      · subst hqa
        simp [hq, Function.update_apply]
      · simp [hq, hqa, Function.update_apply, List.mem_cons]

/-- Claim C5: on a duplicate-free person list whose bucket totals are all
non-zero, normalize succeeds, and afterwards every person's three gene
probabilities sum to 1, the two trait probabilities sum to 1, and every
normalized value is the unnormalized one divided by its bucket total. -/
theorem c5_distribution_closure (names : List α) (probs : α → PersonProbs)
    (hnd : names.Nodup)
    (hpos : ∀ q ∈ names, geneSum (probs q) ≠ 0 ∧ traitSum (probs q) ≠ 0) :
    ∃ f, normalize names probs = some f ∧ ∀ q ∈ names,
      ((f q).gene0 + (f q).gene1 + (f q).gene2 = 1) ∧
      ((f q).traitTrue + (f q).traitFalse = 1) ∧
      (f q).gene0 = (probs q).gene0 / geneSum (probs q) ∧
      (f q).gene1 = (probs q).gene1 / geneSum (probs q) ∧
      (f q).gene2 = (probs q).gene2 / geneSum (probs q) ∧
      (f q).traitTrue = (probs q).traitTrue / traitSum (probs q) ∧
      (f q).traitFalse = (probs q).traitFalse / traitSum (probs q) := by
  refine ⟨_, normalize_some names probs hnd hpos, fun q hq => ?_⟩
  obtain ⟨hg, ht⟩ := hpos q hq
  simp only [if_pos hq]
  refine ⟨?_, ?_, rfl, rfl, rfl, rfl, rfl⟩
  · show (probs q).gene0 / geneSum (probs q) + (probs q).gene1 / geneSum (probs q) +
      (probs q).gene2 / geneSum (probs q) = 1
    rw [div_add_div_same, div_add_div_same,
      show (probs q).gene0 + (probs q).gene1 + (probs q).gene2 = geneSum (probs q) from rfl]
    exact div_self hg
  · show (probs q).traitTrue / traitSum (probs q) +
      (probs q).traitFalse / traitSum (probs q) = 1
    rw [div_add_div_same,
      show (probs q).traitTrue + (probs q).traitFalse = traitSum (probs q) from by
        rw [traitSum]; ring]
    exact div_self ht

/-- Witness for C5: normalization of a concrete one-person accumulator
succeeds and the normalized gene distribution sums to 1. -/
theorem c5_distribution_closure_witness :
    ∃ f, normalize [0] probs0 = some f ∧
      (f 0).gene0 + (f 0).gene1 + (f 0).gene2 = 1 := by
  obtain ⟨f, hf, hprop⟩ := c5_distribution_closure [0] probs0 (by decide)
    (by
      intro q hq
      constructor <;> norm_num [probs0, geneSum, traitSum])
  exact ⟨f, hf, (hprop 0 (List.mem_cons_self 0 [])).1⟩

/-- The accumulation run, seen from one listed person: a fold of addMass
steps over the evaluated hypothesis list. -/
theorem run_fold_apply (people : Pedigree α) (hnd : people.names.Nodup)
    (q : α) (hq : q ∈ people.names) :
    ∀ (L : List (List α × List α × List α)) (probs : α → PersonProbs),
      (L.foldl (runStep people) probs) q =
        L.foldl (fun pp h =>
          addMass pp (request h.2.1 h.2.2 h.1 q).gene (request h.2.1 h.2.2 h.1 q).trait
            ((joint_probability people h.2.1 h.2.2 h.1).getD 0)) (probs q)
  | [], _ => rfl
  | h :: L, probs => by
    rw [List.foldl_cons, List.foldl_cons, run_fold_apply people hnd q hq L _]
    congr 1
    unfold runStep
    rw [update_apply _ _ _ _ people.names probs hnd q, if_pos hq]

/-- Claim C7, settled as a code bug: the committed program exits with a
traceback before any inference (the module fails to parse at
heredity.py:233), so it produces no posterior at all.  This theorem proves
the claim of the intended program: running the whole inference on a
pedigree holding a single founder with no trait observation yields a
posterior gene-count distribution exactly equal to the unconditional gene
prior. -/
theorem c7_single_founder_prior :
    (normalize solo.names (run solo)).map
      (fun f => ((f 0).gene0, (f 0).gene1, (f 0).gene2)) =
      some (96/100, 3/100, 1/100) := by
  have h1 : hypothesis_list solo =
      [([], [], []), ([], [], [0]), ([], [0], []),
        ([0], [], []), ([0], [], [0]), ([0], [0], [])] := by rfl
  have hwf : ∀ n ∈ solo.names,
      ((solo.person n).mother).isSome → ((solo.person n).father).isSome := by
    intro n _ h
    simp [solo] at h
  have hj : ∀ og tg ht : List ℕ, joint_probability solo og tg ht =
      some ((PROBS_trait (gene_no og tg 0) (decide (0 ∈ ht))).getD 0 *
        (PROBS_gene (gene_no og tg 0)).getD 0) := by
    intro og tg ht
    rw [joint_probability_eq_some solo og tg ht hwf]
    congr 1
    simp [jointSpec, gene_factor, solo]
  have hrun : run solo 0 = ⟨96/100, 3/100, 1/100, 329/10000, 9671/10000⟩ := by
    unfold run
    rw [run_fold_apply solo (by decide) 0 (by decide) (hypothesis_list solo) initProbs, h1]
    simp only [List.foldl_cons, List.foldl_nil, hj]
    norm_num [request, gene_no, addMass, initProbs, PROBS_trait, PROBS_gene]
  have hpos : ∀ q ∈ ([0] : List ℕ),
      geneSum (run solo q) ≠ 0 ∧ traitSum (run solo q) ≠ 0 := by
    intro q hq
    have hq0 : q = 0 := by simpa using hq
    subst hq0
    rw [hrun]
    constructor <;> norm_num [geneSum, traitSum]
  rw [show solo.names = [0] from rfl, normalize_some [0] (run solo) (by decide) hpos]
  simp only [Option.map_some']
  have : (0 : ℕ) ∈ ([0] : List ℕ) := List.mem_cons_self 0 []
  rw [if_pos this, hrun]
  norm_num [normEntry, geneSum, traitSum]

omit [DecidableEq α] in
theorem addMass_geneSum (pp : PersonProbs) {g : ℕ} (hg : g < 3) (b : Bool) (p : ℚ) :
    geneSum (addMass pp g b p) = geneSum pp + p := by
  have h3 : g = 0 ∨ g = 1 ∨ g = 2 := by omega
  rcases h3 with rfl | rfl | rfl <;> cases b <;> simp [addMass, geneSum] <;> ring

omit [DecidableEq α] in
theorem addMass_traitSum (pp : PersonProbs) (g : ℕ) (b : Bool) (p : ℚ) :
    traitSum (addMass pp g b p) = traitSum pp + p := by
  rcases g with _ | _ | _ | g <;> cases b <;> simp [addMass, traitSum] <;> ring

/-- Folding addMass steps increases both bucket totals by exactly the sum of
the masses folded in. -/
theorem fold_addMass_sums (people : Pedigree α) (q : α) :
    ∀ (L : List (List α × List α × List α)) (pp : PersonProbs),
      geneSum (L.foldl (fun pp h =>
          addMass pp (request h.2.1 h.2.2 h.1 q).gene (request h.2.1 h.2.2 h.1 q).trait
            ((joint_probability people h.2.1 h.2.2 h.1).getD 0)) pp) =
        geneSum pp +
          (L.map (fun h => (joint_probability people h.2.1 h.2.2 h.1).getD 0)).sum ∧
      traitSum (L.foldl (fun pp h =>
          addMass pp (request h.2.1 h.2.2 h.1 q).gene (request h.2.1 h.2.2 h.1 q).trait
            ((joint_probability people h.2.1 h.2.2 h.1).getD 0)) pp) =
        traitSum pp +
          (L.map (fun h => (joint_probability people h.2.1 h.2.2 h.1).getD 0)).sum
  | [], pp => by simp
  | h :: L, pp => by
    rw [List.foldl_cons, List.map_cons, List.sum_cons]
    obtain ⟨hg, ht⟩ := fold_addMass_sums people q L
      (addMass pp (request h.2.1 h.2.2 h.1 q).gene (request h.2.1 h.2.2 h.1 q).trait
        ((joint_probability people h.2.1 h.2.2 h.1).getD 0))
    rw [hg, ht,
      addMass_geneSum pp
        (show (request h.2.1 h.2.2 h.1 q).gene < 3 from gene_no_lt_three h.2.1 h.2.2 q),
      addMass_traitSum pp]
    constructor <;> ring

/-- Both of a listed person's bucket totals after the run equal the total
mass of all evaluated hypotheses. -/
theorem run_sums (people : Pedigree α) (hnd : people.names.Nodup)
    (q : α) (hq : q ∈ people.names) :
    geneSum (run people q) =
      ((hypothesis_list people).map
        (fun h => (joint_probability people h.2.1 h.2.2 h.1).getD 0)).sum ∧
    traitSum (run people q) =
      ((hypothesis_list people).map
        (fun h => (joint_probability people h.2.1 h.2.2 h.1).getD 0)).sum := by
  unfold run
  rw [run_fold_apply people hnd q hq]
  have h := fold_addMass_sums people q (hypothesis_list people) (initProbs q)
  simpa [initProbs, geneSum, traitSum] using h

omit [DecidableEq α] in
theorem normalizePerson_none_iff {pp : PersonProbs} :
    normalizePerson pp = none ↔ geneSum pp = 0 ∨ traitSum pp = 0 := by
  by_cases hg : geneSum pp = 0
  · simp [normalizePerson, hg]
  · by_cases ht : traitSum pp = 0 <;> simp [normalizePerson, hg, ht]

/-- normalize aborts exactly when some listed person has a zero bucket
total. -/
theorem normalize_none_iff : ∀ (names : List α) (probs : α → PersonProbs), names.Nodup →
    (normalize names probs = none ↔
      ∃ q ∈ names, geneSum (probs q) = 0 ∨ traitSum (probs q) = 0)
  | [], probs, _ => by simp [normalize]
  | a :: l, probs, hnd => by
    obtain ⟨ha, hnd'⟩ := List.nodup_cons.mp hnd
    unfold normalize
    rw [List.foldlM_cons]
    cases hnp : normalizePerson (probs a) with
    | none =>
      have hstep : nstep probs a = none := by simp [nstep, hnp]
      simp only [hstep, Option.bind_eq_bind, Option.none_bind]
      exact iff_of_true trivial
        ⟨a, List.mem_cons_self a l, normalizePerson_none_iff.mp hnp⟩
    | some upd =>
      have hne : ¬(geneSum (probs a) = 0 ∨ traitSum (probs a) = 0) := by
        intro hor
        rw [normalizePerson_none_iff.mpr hor] at hnp
        exact Option.noConfusion hnp
      push_neg at hne
      have hstep : nstep probs a =
          some (Function.update probs a (normEntry (probs a))) := by
        simp [nstep, normalizePerson_some hne.1 hne.2]
      simp only [hstep, Option.bind_eq_bind, Option.some_bind]
      rw [show l.foldlM nstep (Function.update probs a (normEntry (probs a))) =
        normalize l (Function.update probs a (normEntry (probs a))) from rfl]
      rw [normalize_none_iff l _ hnd']
      constructor
      · rintro ⟨q, hql, hsum⟩
        have hqa : ¬(q = a) := fun h => ha (h ▸ hql)
        rw [Function.update_apply, if_neg hqa] at hsum
        exact ⟨q, List.mem_cons_of_mem a hql, hsum⟩
      · rintro ⟨q, hq, hsum⟩
        rcases List.mem_cons.mp hq with rfl | hql
        · exact absurd hsum (by push_neg; exact hne)
        · have hqa : ¬(q = a) := fun h => ha (h ▸ hql)
          exact ⟨q, hql, by rwa [Function.update_apply, if_neg hqa]⟩

theorem sum_eq_zero_iff_nonneg : ∀ (l : List ℚ), (∀ x ∈ l, 0 ≤ x) →
    (l.sum = 0 ↔ ∀ x ∈ l, x = 0)
  | [], _ => by simp
  | a :: l, h => by
    rw [List.sum_cons]
    have ha := h a (List.mem_cons_self a l)
    have hrest : ∀ x ∈ l, 0 ≤ x := fun x hx => h x (List.mem_cons_of_mem a hx)
    have hs : 0 ≤ l.sum := List.sum_nonneg hrest
    constructor
    · intro h0
      have h1 : a = 0 := by linarith
      have h2 : l.sum = 0 := by linarith
      intro x hx
      rcases List.mem_cons.mp hx with rfl | hx'
      · exact h1
      · exact ((sum_eq_zero_iff_nonneg l hrest).mp h2) x hx'
    · intro h0
      rw [h0 a (List.mem_cons_self a l),
        (sum_eq_zero_iff_nonneg l hrest).mpr (fun x hx => h0 x (List.mem_cons_of_mem a hx))]
      norm_num

/-- Claim C8, settled as a code bug: in the committed program normalize is
never reached, since the module fails to parse (heredity.py:233).  This
theorem proves the claim of the intended program: normalization of the
run's accumulator fails exactly when some person's bucket total is zero,
and then it surfaces as an explicit abort (`none`, the raised
ZeroDivisionError) rather than a NaN; every person's bucket totals equal
the total evaluated hypothesis mass, which vanishes exactly when every
evaluated hypothesis has probability zero; and on any accumulator whose
listed totals are all non-zero, normalize succeeds. -/
theorem c8_normalization_failure (people : Pedigree α) (hnd : people.names.Nodup) :
    (normalize people.names (run people) = none ↔
      ∃ q ∈ people.names,
        geneSum (run people q) = 0 ∨ traitSum (run people q) = 0) ∧
    (∀ q ∈ people.names,
      geneSum (run people q) =
        ((hypothesis_list people).map
          (fun h => (joint_probability people h.2.1 h.2.2 h.1).getD 0)).sum ∧
      traitSum (run people q) =
        ((hypothesis_list people).map
          (fun h => (joint_probability people h.2.1 h.2.2 h.1).getD 0)).sum) ∧
    (((hypothesis_list people).map
        (fun h => (joint_probability people h.2.1 h.2.2 h.1).getD 0)).sum = 0 ↔
      ∀ h ∈ hypothesis_list people,
        (joint_probability people h.2.1 h.2.2 h.1).getD 0 = 0) ∧
    (∀ probs : α → PersonProbs,
      (∀ q ∈ people.names, geneSum (probs q) ≠ 0 ∧ traitSum (probs q) ≠ 0) →
      ∃ f, normalize people.names probs = some f) := by
  refine ⟨normalize_none_iff people.names (run people) hnd,
    fun q hq => run_sums people hnd q hq, ?_, ?_⟩
  · rw [sum_eq_zero_iff_nonneg]
    · constructor
      · intro h0 h hm
        exact h0 _ (List.mem_map_of_mem _ hm)
      · intro h0 x hx
        obtain ⟨h, hm, rfl⟩ := List.mem_map.mp hx
        exact h0 h hm
    · intro x hx
      obtain ⟨h, _, rfl⟩ := List.mem_map.mp hx
      exact joint_probability_getD_nonneg people h.2.1 h.2.2 h.1
  · intro probs hpos
    exact ⟨_, normalize_some people.names probs hnd hpos⟩

/-- Witness for C8: on the one-person pedigree with an observed trait the
bucket totals are non-zero, so normalization succeeds. -/
theorem c8_normalization_failure_witness :
    (normalize soloT.names (run soloT)).isSome = true := by
  have h1 : hypothesis_list soloT =
      [([0], [], []), ([0], [], [0]), ([0], [0], [])] := by rfl
  have hwf : ∀ n ∈ soloT.names,
      ((soloT.person n).mother).isSome → ((soloT.person n).father).isSome := by
    intro n _ h
    simp [soloT] at h
  have hj : ∀ og tg ht : List ℕ, joint_probability soloT og tg ht =
      some ((PROBS_trait (gene_no og tg 0) (decide (0 ∈ ht))).getD 0 *
        (PROBS_gene (gene_no og tg 0)).getD 0) := by
    intro og tg ht
    rw [joint_probability_eq_some soloT og tg ht hwf]
    congr 1
    simp [jointSpec, gene_factor, soloT]
  have hrun : run soloT 0 = ⟨96/10000, 168/10000, 65/10000, 329/10000, 0⟩ := by
    unfold run
    rw [run_fold_apply soloT (by decide) 0 (by decide) (hypothesis_list soloT) initProbs, h1]
    simp only [List.foldl_cons, List.foldl_nil, hj]
    norm_num [request, gene_no, addMass, initProbs, PROBS_trait, PROBS_gene]
  obtain ⟨f, hf⟩ := (c8_normalization_failure soloT (by decide)).2.2.2 (run soloT)
    (by
      intro q hq
      have hq0 : q = 0 := by simpa [soloT] using hq
      subst hq0
      rw [hrun]
      constructor <;> norm_num [geneSum, traitSum])
  rw [hf]
  rfl

theorem countP_eq_sum_map {β : Type} (l : List β) (p : β → Bool) :
    (l.map (fun a => if p a then 1 else 0)).sum = l.countP p := by
  induction l with
  | nil => rfl
  | cons a l ih =>
    rw [List.map_cons, List.sum_cons, List.countP_cons, ih]
    cases hp : p a <;> simp [hp, Nat.add_comm]

theorem all_and_split {β : Type} (l : List β) (p q : β → Bool) :
    l.all (fun x => p x && q x) = (l.all p && l.all q) := by
  induction l with
  | nil => rfl
  | cons a l ih =>
    rw [List.all_cons, List.all_cons, List.all_cons, ih]
    cases p a <;> cases q a <;> simp

theorem sum_map_const {β : Type} (l : List β) (c : ℕ) :
    (l.map (fun _ => c)).sum = l.length * c := by
  induction l with
  | nil => simp
  | cons a l ih =>
    rw [List.map_cons, List.sum_cons, ih, List.length_cons]
    ring

/-- Removing the members of a sublist from a duplicate-free list leaves
exactly the complementary number of elements. -/
theorem length_filter_not_mem {og names : List α} (h : og.Sublist names) :
    names.Nodup →
      (names.filter (fun x => decide (x ∉ og))).length = names.length - og.length := by
  induction h with
  | slnil => intro _; rfl
  | @cons og names a h ih =>
    intro hnd
    obtain ⟨ha, hnd'⟩ := List.nodup_cons.mp hnd
    have hog : a ∉ og := fun hmem => ha (h.subset hmem)
    rw [List.filter_cons, if_pos (by simpa using hog), List.length_cons, ih hnd']
    simp only [List.length_cons]
    have := h.length_le
    omega
  | @cons₂ og names a h ih =>
    intro hnd
    obtain ⟨ha, hnd'⟩ := List.nodup_cons.mp hnd
    rw [List.filter_cons, if_neg (by simp)]
    rw [List.filter_congr (fun x hx => ?_), ih hnd']
    · simp only [List.length_cons]
      omega
    · have hxa : ¬(x = a) := fun hh => ha (hh ▸ hx)
      simp [List.mem_cons, hxa]

omit [DecidableEq α] in
theorem sum_pow_sublists' : ∀ (l : List α),
    ((l.sublists').map (fun og => 2 ^ (l.length - og.length))).sum = 3 ^ l.length
  | [] => by simp [List.sublists']
  | a :: l => by
    rw [List.sublists'_cons, List.map_append, List.sum_append, List.map_map]
    have h1 : ∀ s ∈ l.sublists',
        2 ^ ((a :: l).length - s.length) = 2 * 2 ^ (l.length - s.length) := by
      intro s hs
      have hle := (List.mem_sublists'.mp hs).length_le
      rw [List.length_cons,
        show l.length + 1 - s.length = (l.length - s.length) + 1 from by omega]
      ring
    have h2 : ∀ s ∈ l.sublists',
        ((fun og => 2 ^ ((a :: l).length - og.length)) ∘ List.cons a) s =
          2 ^ (l.length - s.length) := by
      intro s _
      simp only [Function.comp_apply, List.length_cons]
      congr 1
      omega
    rw [List.map_congr_left h1, List.map_congr_left h2, List.sum_map_mul_left,
      sum_pow_sublists' l, List.length_cons]
    ring

omit [DecidableEq α] in
theorem sum_pow_powerset (l : List α) :
    ((powerset l).map (fun og => 2 ^ (l.length - og.length))).sum = 3 ^ l.length := by
  rw [List.Perm.sum_eq ((powerset_perm_sublists' l).map _)]
  exact sum_pow_sublists' l

omit [DecidableEq α] in
/-- Membership in powerset is exactly the sublist relation. -/
theorem mem_powerset_iff {l s : List α} : s ∈ powerset l ↔ s.Sublist l := by
  rw [(powerset_perm_sublists' l).mem_iff, List.mem_sublists']

omit [DecidableEq α] in
theorem length_powerset (l : List α) : (powerset l).length = 2 ^ l.length := by
  rw [(powerset_perm_sublists' l).length_eq, List.length_sublists']

/-- The gene-partition double loop runs over exactly 3 ^ n pairs. -/
theorem length_gene_hypotheses (names : List α) (hnd : names.Nodup) :
    (gene_hypotheses names).length = 3 ^ names.length := by
  unfold gene_hypotheses
  rw [List.length_flatMap]
  have h1 : ∀ og ∈ powerset names,
      (List.length ∘ fun one_gene =>
        (powerset (names.filter (fun x => decide (x ∉ one_gene)))).map
          (fun two_genes => (one_gene, two_genes))) og =
        2 ^ (names.length - og.length) := by
    intro og hog
    have hsub : og.Sublist names := mem_powerset_iff.mp hog
    simp only [Function.comp_apply, List.length_map]
    rw [length_powerset, length_filter_not_mem hsub hnd]
  rw [List.map_congr_left h1]
  exact sum_pow_powerset names

/-- The unfiltered triple space has exactly 2 ^ n * 3 ^ n elements. -/
theorem length_all_hypotheses (names : List α) (hnd : names.Nodup) :
    (all_hypotheses names).length = 2 ^ names.length * 3 ^ names.length := by
  unfold all_hypotheses
  rw [List.length_flatMap]
  have h1 : ∀ ht ∈ powerset names,
      (List.length ∘ fun have_trait =>
        (gene_hypotheses names).map (fun p => (have_trait, p.1, p.2))) ht =
        3 ^ names.length := by
    intro ht _
    simp only [Function.comp_apply, List.length_map]
    exact length_gene_hypotheses names hnd
  rw [List.map_congr_left h1, sum_map_const, length_powerset]

/-- The gene-count match predicate, restricted to the people outside
one_gene, is a pure membership pattern on two_genes. -/
theorem gene_match_eq (names og tg : List α) (g : α → ℕ)
    (hrange : ∀ x ∈ names, g x < 3)
    (hog : ∀ x ∈ names, x ∈ og ↔ g x = 1) :
    names.all (fun x => gene_no og tg x == g x) =
      (names.filter (fun x => decide (x ∉ og))).all
        (fun x => decide (x ∈ tg) == (g x == 2)) := by
  rw [Bool.eq_iff_iff]
  simp only [List.all_eq_true, List.mem_filter, beq_iff_eq, decide_eq_true_eq]
  constructor
  · rintro hall x ⟨hxn, hxog⟩
    have hv := hall x hxn
    unfold gene_no at hv
    rw [if_neg hxog] at hv
    by_cases hxt : x ∈ tg
    · rw [if_pos hxt] at hv
      simp [hxt, ← hv]
    · rw [if_neg hxt] at hv
      simp [hxt, ← hv]
  · intro hall x hxn
    unfold gene_no
    by_cases hxog : x ∈ og
    · rw [if_pos hxog]
      exact ((hog x hxn).mp hxog).symm
    · rw [if_neg hxog]
      have h2 := hall x ⟨hxn, hxog⟩
      have hne1 : g x ≠ 1 := fun h => hxog ((hog x hxn).mpr h)
      have h3 := hrange x hxn
      by_cases hxt : x ∈ tg
      · rw [if_pos hxt]
        simp [hxt] at h2
        omega
      · rw [if_neg hxt]
        simp [hxt] at h2
        omega

/-- For a one_gene set matching the one-copy people of an assignment,
exactly one two_genes choice realizes the assignment. -/
theorem inner_tg_count (names og : List α) (g : α → ℕ) (hnd : names.Nodup)
    (hrange : ∀ x ∈ names, g x < 3)
    (hog : ∀ x ∈ names, x ∈ og ↔ g x = 1) :
    (powerset (names.filter (fun x => decide (x ∉ og)))).countP
      (fun tg => names.all (fun x => gene_no og tg x == g x)) = 1 := by
  have hcong : ∀ tg ∈ powerset (names.filter (fun x => decide (x ∉ og))),
      (names.all (fun x => gene_no og tg x == g x) = true) ↔
        ((names.filter (fun x => decide (x ∉ og))).all
          (fun x => decide (x ∈ tg) == (g x == 2)) = true) := by
    intro tg _
    rw [gene_match_eq names og tg g hrange hog]
  rw [List.countP_congr hcong]
  exact countP_mem_char_powerset (fun x => g x == 2)
    (names.filter (fun x => decide (x ∉ og))) (hnd.filter _)

/-- For a one_gene set not matching the assignment, no two_genes choice
realizes it. -/
theorem inner_tg_count_zero (names og : List α) (g : α → ℕ)
    (hbad : ¬(∀ x ∈ names, x ∈ og ↔ g x = 1)) :
    (powerset (names.filter (fun x => decide (x ∉ og)))).countP
      (fun tg => names.all (fun x => gene_no og tg x == g x)) = 0 := by
  rw [List.countP_eq_zero]
  intro tg _
  push_neg at hbad
  obtain ⟨x, hxn, hx⟩ := hbad
  rw [List.all_eq_true]
  push_neg
  refine ⟨x, hxn, ?_⟩
  unfold gene_no
  rcases hx with ⟨hxog, hne⟩ | ⟨hxog, heq⟩
  · rw [if_pos hxog]
    simp [Ne.symm hne]
  · rw [if_neg hxog, heq]
    by_cases hxt : x ∈ tg <;> simp [hxt]

/-- Each gene-count assignment with values in 0/1/2 is realized by exactly
one (one_gene, two_genes) pair of the double loop. -/
theorem gene_pair_count (names : List α) (g : α → ℕ) (hnd : names.Nodup)
    (hrange : ∀ x ∈ names, g x < 3) :
    (gene_hypotheses names).countP
      (fun p => names.all (fun x => gene_no p.1 p.2 x == g x)) = 1 := by
  unfold gene_hypotheses
  rw [List.countP_flatMap]
  have h1 : ∀ og ∈ powerset names,
      (List.countP (fun p => names.all (fun x => gene_no p.1 p.2 x == g x)) ∘
        fun one_gene =>
          (powerset (names.filter (fun x => decide (x ∉ one_gene)))).map
            (fun two_genes => (one_gene, two_genes))) og =
        if names.all (fun x => decide (x ∈ og) == (g x == 1)) then 1 else 0 := by
    intro og _
    simp only [Function.comp_apply, List.countP_map]
    cases hogall : names.all (fun x => decide (x ∈ og) == (g x == 1)) with
    | true =>
      rw [if_pos rfl]
      have hog : ∀ x ∈ names, x ∈ og ↔ g x = 1 := by
        intro x hxn
        have hxe := List.all_eq_true.mp hogall x hxn
        rw [beq_iff_eq] at hxe
        constructor
        · intro hmem
          simp [hmem] at hxe
          exact hxe
        · intro hgx
          simp [hgx] at hxe
          exact hxe
      exact inner_tg_count names og g hnd hrange hog
    | false =>
      rw [if_neg (by simp)]
      have hbad : ¬(∀ x ∈ names, x ∈ og ↔ g x = 1) := by
        intro hog
        have hall : names.all (fun x => decide (x ∈ og) == (g x == 1)) = true := by
          rw [List.all_eq_true]
          intro x hxn
          by_cases hxog : x ∈ og
          · simp [hxog, (hog x hxn).mp hxog]
          · have hne : g x ≠ 1 := fun h => hxog ((hog x hxn).mpr h)
            simp [hxog, hne]
        rw [hogall] at hall
        exact Bool.noConfusion hall
      exact inner_tg_count_zero names og g hbad
  rw [List.map_congr_left h1, countP_eq_sum_map, countP_mem_char_powerset
    (fun x => g x == 1) names hnd]

/-- Each (gene assignment, trait assignment) pair with gene values in 0/1/2
is realized by exactly one triple of the unfiltered enumeration. -/
theorem all_hypotheses_count (names : List α) (g : α → ℕ) (t : α → Bool)
    (hnd : names.Nodup) (hrange : ∀ x ∈ names, g x < 3) :
    (all_hypotheses names).countP
      (fun h => names.all
        (fun x => (gene_no h.2.1 h.2.2 x == g x) && (decide (x ∈ h.1) == t x))) = 1 := by
  unfold all_hypotheses
  rw [List.countP_flatMap]
  have h1 : ∀ ht ∈ powerset names,
      (List.countP (fun h => names.all
          (fun x => (gene_no h.2.1 h.2.2 x == g x) && (decide (x ∈ h.1) == t x))) ∘
        fun have_trait => (gene_hypotheses names).map (fun p => (have_trait, p.1, p.2))) ht =
        if names.all (fun x => decide (x ∈ ht) == t x) then 1 else 0 := by
    intro ht _
    simp only [Function.comp_apply, List.countP_map]
    cases htall : names.all (fun x => decide (x ∈ ht) == t x) with
    | true =>
      rw [if_pos rfl]
      have hcong : ∀ p ∈ gene_hypotheses names,
          (names.all (fun x =>
            (gene_no p.1 p.2 x == g x) && (decide (x ∈ ht) == t x)) = true) ↔
          (names.all (fun x => gene_no p.1 p.2 x == g x) = true) := by
        intro p _
        rw [all_and_split]
        simp [htall]
      show List.countP (fun p : List α × List α => names.all
        (fun x => (gene_no p.1 p.2 x == g x) && (decide (x ∈ ht) == t x)))
        (gene_hypotheses names) = 1
      rw [List.countP_congr hcong]
      exact gene_pair_count names g hnd hrange
    | false =>
      rw [if_neg (by simp), List.countP_eq_zero]
      intro p _
      show ¬(names.all
        (fun x => (gene_no p.1 p.2 x == g x) && (decide (x ∈ ht) == t x)) = true)
      rw [all_and_split]
      simp [htall]
  rw [List.map_congr_left h1, countP_eq_sum_map,
    countP_mem_char_powerset t names hnd]

/-- In every enumerated triple the two gene groups are disjoint. -/
theorem all_hypotheses_disjoint (names : List α) :
    ∀ h ∈ all_hypotheses names, ∀ x ∈ h.2.2, x ∉ h.2.1 := by
  intro h hm x hx
  unfold all_hypotheses gene_hypotheses at hm
  simp only [List.mem_flatMap, List.mem_map] at hm
  obtain ⟨ht, -, p, ⟨og, -, tg, htg, rfl⟩, rfl⟩ := hm
  have hsub : tg.Sublist (names.filter (fun y => decide (y ∉ og))) :=
    mem_powerset_iff.mp htg
  have hxf := hsub.subset hx
  have hdec := (List.mem_filter.mp hxf).2
  simpa using hdec

/-- Filtering the trait sets before the gene loops is the same as filtering
the flat triple space on its trait component. -/
theorem filter_flatMap_comm {β γ : Type} (l : List β) (f : β → List γ)
    (p : β → Bool) (q : γ → Bool) (hpq : ∀ b, ∀ c ∈ f b, q c = p b) :
    (l.filter p).flatMap f = (l.flatMap f).filter q := by
  induction l with
  | nil => rfl
  | cons a l ih =>
    cases hpa : p a
    · rw [List.filter_cons, if_neg (by simp [hpa]), List.flatMap_cons,
        List.filter_append, ← ih,
        show List.filter q (f a) = [] from
          List.filter_eq_nil_iff.mpr (fun c hc => by simp [hpq a c hc, hpa]),
        List.nil_append]
    · rw [List.filter_cons, if_pos (by simp [hpa]), List.flatMap_cons,
        List.flatMap_cons, List.filter_append, ← ih,
        show List.filter q (f a) = f a from
          List.filter_eq_self.mpr (fun c hc => by simp [hpq a c hc, hpa])]

/-- The driver's evaluated triples are exactly the unfiltered triple space
filtered on the evidence check of the trait component. -/
theorem hypothesis_list_eq_filter (people : Pedigree α) :
    hypothesis_list people =
      (all_hypotheses people.names).filter (fun h => !fails_evidence people h.1) := by
  unfold hypothesis_list all_hypotheses
  exact filter_flatMap_comm (powerset people.names) _ _ _ (fun ht c hc => by
    obtain ⟨p, -, rfl⟩ := List.mem_map.mp hc
    rfl)

/-- Claim C2: on a duplicate-free person list, the driver's enumeration is
exhaustive and non-duplicating: the unfiltered triple space has exactly
2 ^ n * 3 ^ n elements; every gene-count assignment with values in 0/1/2
crossed with every trait assignment is realized by exactly one triple (so
each person lies in exactly one of the zero/one/two-copy groups and has
exactly one trait status per hypothesis); the one-copy and two-copy groups
of every triple are disjoint; and the evaluated list is this space filtered
by the evidence check alone. -/
theorem c2_enumeration_exact (people : Pedigree α) (hnd : people.names.Nodup) :
    (all_hypotheses people.names).length =
      2 ^ people.names.length * 3 ^ people.names.length ∧
    (∀ (g : α → ℕ) (t : α → Bool), (∀ x ∈ people.names, g x < 3) →
      (all_hypotheses people.names).countP
        (fun h => people.names.all
          (fun x => (gene_no h.2.1 h.2.2 x == g x) && (decide (x ∈ h.1) == t x))) = 1) ∧
    (∀ h ∈ all_hypotheses people.names, ∀ x ∈ h.2.2, x ∉ h.2.1) ∧
    hypothesis_list people =
      (all_hypotheses people.names).filter (fun h => !fails_evidence people h.1) :=
  ⟨length_all_hypotheses people.names hnd,
    fun g t hrange => all_hypotheses_count people.names g t hnd hrange,
    all_hypotheses_disjoint people.names,
    hypothesis_list_eq_filter people⟩

/-- Witness for C2: the one-person pedigree; the space has 6 triples, the
assignment (one copy, trait) is hit exactly once, the groups of a sample
triple are disjoint, and the driver's list is the filtered space. -/
theorem c2_enumeration_exact_witness :
    (all_hypotheses solo.names).length = 2 ^ 1 * 3 ^ 1 ∧
    (all_hypotheses solo.names).countP
      (fun h => solo.names.all
        (fun x => (gene_no h.2.1 h.2.2 x == 1) && (decide (x ∈ h.1) == true))) = 1 ∧
    ((0 : ℕ) ∈ (([], [], [0]) : List ℕ × List ℕ × List ℕ).2.2 →
      (0 : ℕ) ∉ (([], [], [0]) : List ℕ × List ℕ × List ℕ).2.1) ∧
    hypothesis_list solo =
      (all_hypotheses solo.names).filter (fun h => !fails_evidence solo h.1) := by
  have hc := c2_enumeration_exact solo (by decide)
  exact ⟨hc.1, hc.2.1 (fun _ => 1) (fun _ => true) (by decide),
    fun hmem => hc.2.2.1 ([], [], [0]) (by decide) 0 hmem, hc.2.2.2⟩

end Heredity
